import Mathlib

/-!
Shallow embedding of the backup lifecycle core of the deployment-manager
repository (`src/backup.py`): the backup-date parser, catalog listing,
schedule gate and the tiered retention/rotation algorithm, together with
proofs of the specified properties.

Conventions of the embedding:
* Python `datetime.date` values are `Date` records; comparison and
  day-difference arithmetic go through `toOrdinal`, the proleptic Gregorian
  day number (exactly `datetime.date.toordinal`), which on valid dates
  coincides with Python's lexicographic date comparison.
* `\d` of the filename regex is modelled as an ASCII digit.
* Python's stable `list.sort` is modelled by `List.insertionSort`, which is
  stable and has the matching permutation/sortedness lemmas.
* A raised `ValueError` (from `datetime.strptime`) is modelled by
  `Except.error ()`: `parse_backup_date` does not catch it, so it propagates
  out of the catalog listing.
-/

namespace Backup

/-- A calendar date as carried by Python's `datetime.date`. -/
structure Date where
  year : Nat
  month : Nat
  day : Nat
deriving DecidableEq, Repr

/-- Gregorian leap-year rule (`calendar.isleap`). -/
def isLeap (y : Nat) : Bool :=
  y % 4 == 0 && (y % 100 != 0 || y % 400 == 0)

/-- Number of days in month `m` of year `y`. -/
def daysInMonth (y m : Nat) : Nat :=
  if m = 2 then (if isLeap y then 29 else 28)
  else if m = 4 ∨ m = 6 ∨ m = 9 ∨ m = 11 then 30
  else 31

/-- Cumulative days before month `m` in a non-leap year. -/
def cumDays (m : Nat) : Nat :=
  match m with
  | 1 => 0 | 2 => 31 | 3 => 59 | 4 => 90 | 5 => 120 | 6 => 151
  | 7 => 181 | 8 => 212 | 9 => 243 | 10 => 273 | 11 => 304 | 12 => 334
  | _ => 365

/-- Days before month `m` in year `y` (leap day included when applicable). -/
def daysBeforeMonth (y m : Nat) : Nat :=
  cumDays m + (if 2 < m ∧ isLeap y then 1 else 0)

/-- Proleptic Gregorian ordinal of a date, as `datetime.date.toordinal`:
`0001-01-01` is day 1. Date comparison and `timedelta` arithmetic in the
source reduce to arithmetic on this ordinal. -/
def toOrdinal (d : Date) : Nat :=
  365 * (d.year - 1) + (d.year - 1) / 4 - (d.year - 1) / 100 + (d.year - 1) / 400
    + daysBeforeMonth d.year d.month + d.day

/-- The validity check performed by `datetime.strptime(s, "%Y-%m-%d")`:
year within `datetime`'s range (the regex already caps it at 9999),
month 1..12, day 1..days-in-month. -/
def validDate (y m d : Nat) : Bool :=
  1 ≤ y && 1 ≤ m && m ≤ 12 && 1 ≤ d && d ≤ daysInMonth y m

/-- One backup artifact as carried through the source: the tuple
`(f, date, path)` built in `get_existing_backups`. -/
structure Entry where
  filename : String
  date : Date
  path : String
deriving DecidableEq, Repr

/-- The `(date.year, date.month)` grouping key of the monthly tier. -/
def monthKey (e : Entry) : Nat × Nat :=
  (e.date.year, e.date.month)

/-! ### Filename parsing (`parse_backup_date`, lines 28-33) -/

/-- Numeric value of an ASCII digit character. -/
def digitVal (c : Char) : Nat := c.toNat - 48

/-- The regex `\.(\d{4}-\d{2}-\d{2})$` of `parse_backup_date`: succeeds iff
the filename ends in a literal dot followed by exactly `DDDD-DD-DD` digits,
returning the three digit groups as numbers. -/
def suffixDateDigits (filename : String) : Option (Nat × Nat × Nat) :=
  match filename.data.reverse with
  | dB :: dA :: '-' :: mB :: mA :: '-' :: yD :: yC :: yB :: yA :: '.' :: _ =>
    if (dB.isDigit && dA.isDigit && mB.isDigit && mA.isDigit
        && yD.isDigit && yC.isDigit && yB.isDigit && yA.isDigit) then
      some (1000 * digitVal yA + 100 * digitVal yB + 10 * digitVal yC + digitVal yD,
            10 * digitVal mA + digitVal mB,
            10 * digitVal dA + digitVal dB)
    else none
  | _ => none

/-- `parse_backup_date` (lines 28-33). Returns `.ok none` when the regex does
not match (the function returns `None`), `.ok (some d)` on a strictly valid
date, and `.error ()` when the regex matches but `strptime` raises
`ValueError` — the source has no `try/except`, so the exception propagates. -/
def parse_backup_date (filename : String) : Except Unit (Option Date) :=
  match suffixDateDigits filename with
  | some (y, m, d) =>
    if validDate y m d then Except.ok (some ⟨y, m, d⟩) else Except.error ()
  | none => Except.ok none

/-! ### Catalog listing (`get_existing_backups`, lines 36-51) -/

/-- The collection loop of `get_existing_backups`: parse each listed filename
in order, keep the dated ones as entries `(f, date, dir/f)`, and propagate a
parse exception. -/
def collectBackups (dir : String) : List String → Except Unit (List Entry)
  | [] => Except.ok []
  | f :: fs =>
    match parse_backup_date f with
    | Except.error e => Except.error e
    | Except.ok none => collectBackups dir fs
    | Except.ok (some dt) =>
      match collectBackups dir fs with
      | Except.error e => Except.error e
      | Except.ok rest => Except.ok ({ filename := f, date := dt, path := dir ++ "/" ++ f } :: rest)

/-- Descending-by-date order on entries used by
`backups.sort(key=lambda x: x[1], reverse=True)`: `a` may precede `b` iff
`a.date >= b.date`. -/
def dateGe (a b : Entry) : Prop := toOrdinal b.date ≤ toOrdinal a.date

instance : DecidableRel dateGe := fun a b => by unfold dateGe; infer_instance

instance : IsTotal Entry dateGe := ⟨fun a b => Nat.le_total (toOrdinal b.date) (toOrdinal a.date)⟩

instance : IsTrans Entry dateGe :=
  ⟨fun _ _ _ h1 h2 => Nat.le_trans h2 h1⟩

/-- Ascending-by-date order used by
`sorted(monthly[month_key], key=lambda x: x[1])`. -/
def dateLe (a b : Entry) : Prop := toOrdinal a.date ≤ toOrdinal b.date

instance : DecidableRel dateLe := fun a b => by unfold dateLe; infer_instance

instance : IsTotal Entry dateLe := ⟨fun a b => Nat.le_total (toOrdinal a.date) (toOrdinal b.date)⟩

instance : IsTrans Entry dateLe :=
  ⟨fun _ _ _ h1 h2 => Nat.le_trans h1 h2⟩

/-- `get_existing_backups` (lines 36-51): parse the directory listing and
sort the entries by date, newest first (stable). -/
def get_existing_backups (dir : String) (files : List String) : Except Unit (List Entry) :=
  match collectBackups dir files with
  | Except.error e => Except.error e
  | Except.ok backups => Except.ok (backups.insertionSort dateGe)

/-! ### Schedule gate (`should_backup`, lines 54-70) -/

/-- `should_backup` (lines 54-70) as a function of the catalog snapshot and
current date: `days_old = (now - newest).days` is the signed ordinal
difference. -/
def should_backup (backups : List Entry) (now : Date) (force : Bool) : Bool :=
  if force then true
  else
    match backups with
    | [] => true
    | newest :: _ =>
      if (toOrdinal now : Int) - toOrdinal newest.date ≤ 7 then false else true

/-! ### Retention / rotation (`rotate_backups`, lines 73-121) -/

/-- Descending lexicographic order on `(year, month)` keys used by
`sorted(monthly.keys(), reverse=True)`: `a` may precede `b` iff `a >= b`. -/
def keyGe (a b : Nat × Nat) : Prop := b.1 < a.1 ∨ (b.1 = a.1 ∧ b.2 ≤ a.2)

instance : DecidableRel keyGe := fun a b => by unfold keyGe; infer_instance

instance : IsTotal (Nat × Nat) keyGe := by
  constructor
  intro a b
  rcases Nat.lt_trichotomy a.1 b.1 with h | h | h
  · exact Or.inr (Or.inl h)
  · rcases Nat.le_total b.2 a.2 with h2 | h2
    · exact Or.inl (Or.inr ⟨h.symm, h2⟩)
    · exact Or.inr (Or.inr ⟨h, h2⟩)
  · exact Or.inl (Or.inl h)

instance : IsTrans (Nat × Nat) keyGe := by
  constructor
  intro a b c h1 h2
  rcases h1 with h1 | ⟨e1, le1⟩
  · rcases h2 with h2 | ⟨e2, le2⟩
    · exact Or.inl (Nat.lt_trans h2 h1)
    · exact Or.inl (e2 ▸ h1)
  · rcases h2 with h2 | ⟨e2, le2⟩
    · exact Or.inl (e1 ▸ h2)
    · exact Or.inr ⟨e2.trans e1, Nat.le_trans le2 le1⟩

instance : IsAntisymm (Nat × Nat) keyGe := by
  constructor
  intro a b h1 h2
  rcases h1 with h1 | ⟨e1, le1⟩
  · rcases h2 with h2 | ⟨e2, le2⟩
    · exact absurd h1 (Nat.lt_asymm h2)
    · exact absurd h1 (e2 ▸ Nat.lt_irrefl _)
  · rcases h2 with h2 | ⟨e2, le2⟩
    · exact absurd h2 (e1 ▸ Nat.lt_irrefl _)
    · exact Prod.ext e1.symm (Nat.le_antisymm le2 le1)

/-- The month keys of the monthly tier in processing order:
`sorted(monthly.keys(), reverse=True)` over the keys of the
`defaultdict` built from the catalog remainder. -/
def monthKeys (rest : List Entry) : List (Nat × Nat) :=
  ((rest.map monthKey).dedup).insertionSort keyGe

/-- The candidate of one month group: `sorted(month_backups, key=date)[0]`,
the oldest entry of the group (first-encountered on ties, by stability). -/
def monthCandidate (rest : List Entry) (k : Nat × Nat) : Option Entry :=
  ((rest.filter (fun e => monthKey e = k)).insertionSort dateLe).head?

/-- The monthly-tier candidates, one per month group, in descending month
order (the order the `for month_key in sorted(...)` loop visits them). -/
def monthCandidates (rest : List Entry) : List Entry :=
  (monthKeys rest).filterMap (monthCandidate rest)

/-- The cutoff ordinal: `datetime.now().date() - timedelta(days=365)`
(line 97), as an integer so the comparison is exact even for tiny ordinals. -/
def cutoff (now : Date) : Int := (toOrdinal now : Int) - 365

/-- The monthly-tier loop (lines 100-110): visit candidates in order with the
kept-month counter, `break` once 12 months are kept, keep a candidate iff its
date is on or after the cutoff, and only then increment the counter. Returns
the list of kept monthly entries in visit order. -/
def monthlyKeep (cut : Int) : List Entry → Nat → List Entry
  | [], _ => []
  | c :: cs, kept =>
    if 12 ≤ kept then []
    else if cut ≤ (toOrdinal c.date : Int) then c :: monthlyKeep cut cs (kept + 1)
    else monthlyKeep cut cs kept

/-- The `to_keep` set of paths (lines 83-110): the paths of the 4 most recent
entries plus the paths kept by the monthly tier over the remainder. -/
def keptPaths (backups : List Entry) (now : Date) : List String :=
  (backups.take 4).map Entry.path
    ++ (monthlyKeep (cutoff now) (monthCandidates (backups.drop 4)) 0).map Entry.path

/-- The `to_delete` list of `rotate_backups` (lines 112-115): with at most 4
entries the function returns early and deletes nothing; otherwise every
catalog entry whose path is not in `to_keep`. -/
def rotateDelete (backups : List Entry) (now : Date) : List Entry :=
  if backups.length ≤ 4 then []
  else backups.filter (fun e => ¬ e.path ∈ keptPaths backups now)

/-- The surviving (kept) side of the rotation decision: with at most 4
entries everything survives; otherwise every catalog entry whose path is in
`to_keep` — the complement of `rotateDelete` within the catalog. -/
def rotateKeep (backups : List Entry) (now : Date) : List Entry :=
  if backups.length ≤ 4 then backups
  else backups.filter (fun e => e.path ∈ keptPaths backups now)

/-- The monthly-tier loop as the spec words it: every month group is
processed to the end (no early exit); a candidate is kept iff its date is on
or after the cutoff and fewer than 12 months have been kept so far, and only
a kept candidate increments the kept-month counter. Used to compare the
source's loop (which exits early at the 12-month cap) against the spec's
description. -/
def monthlyKeepSpec (cut : Int) : List Entry → Nat → List Entry
  | [], _ => []
  | c :: cs, kept =>
    if cut ≤ (toOrdinal c.date : Int) ∧ kept < 12 then
      c :: monthlyKeepSpec cut cs (kept + 1)
    else monthlyKeepSpec cut cs kept

/-- The per-filename production of the collection loop, as a `filterMap`
step: the entry a dated filename contributes, `none` for an undated one. -/
def entryOf (dir : String) (f : String) : Option Entry :=
  match parse_backup_date f with
  | Except.ok (some dt) => some { filename := f, date := dt, path := dir ++ "/" ++ f }
  | _ => none

/-! ### The concrete scenario of the spec (used as witness data) -/

def scenarioNow : Date := ⟨2024, 4, 1⟩

def e0329 : Entry :=
  ⟨"database.db.2024-03-29", ⟨2024, 3, 29⟩, "backups/x/database.db.2024-03-29"⟩

def e0322 : Entry :=
  ⟨"database.db.2024-03-22", ⟨2024, 3, 22⟩, "backups/x/database.db.2024-03-22"⟩

def e0315 : Entry :=
  ⟨"database.db.2024-03-15", ⟨2024, 3, 15⟩, "backups/x/database.db.2024-03-15"⟩

def e0301 : Entry :=
  ⟨"database.db.2024-03-01", ⟨2024, 3, 1⟩, "backups/x/database.db.2024-03-01"⟩

def e0210 : Entry :=
  ⟨"database.db.2024-02-10", ⟨2024, 2, 10⟩, "backups/x/database.db.2024-02-10"⟩

def e0120 : Entry :=
  ⟨"database.db.2024-01-20", ⟨2024, 1, 20⟩, "backups/x/database.db.2024-01-20"⟩

def e0105 : Entry :=
  ⟨"database.db.2024-01-05", ⟨2024, 1, 5⟩, "backups/x/database.db.2024-01-05"⟩

/-- The scenario catalog of the spec, newest first. -/
def scenarioCatalog : List Entry :=
  [e0329, e0322, e0315, e0301, e0210, e0120, e0105]

/-! ### Helper lemmas about the monthly-tier loop -/

theorem monthlyKeep_sublist (cut : Int) :
    ∀ (l : List Entry) (k : Nat), (monthlyKeep cut l k).Sublist l := by
  intro l
  induction l with
  | nil => intro k; simp [monthlyKeep]
  | cons c cs ih =>
    intro k
    unfold monthlyKeep
    split
    · exact List.nil_sublist _
    · split
      · exact (ih (k + 1)).cons₂ c
      · exact (ih k).cons c

theorem monthlyKeep_length (cut : Int) :
    ∀ (l : List Entry) (k : Nat), (monthlyKeep cut l k).length ≤ 12 - k := by
  intro l
  induction l with
  | nil => intro k; simp [monthlyKeep]
  | cons c cs ih =>
    intro k
    unfold monthlyKeep
    split
    · simp
    · split
      · have := ih (k + 1)
        simp only [List.length_cons]
        omega
      · exact Nat.le_trans (ih k) (Nat.le_refl _)

theorem monthlyKeep_pass (cut : Int) :
    ∀ (l : List Entry) (k : Nat) (e : Entry),
      e ∈ monthlyKeep cut l k → cut ≤ (toOrdinal e.date : Int) := by
  intro l
  induction l with
  | nil => intro k e h; simp [monthlyKeep] at h
  | cons c cs ih =>
    intro k e h
    unfold monthlyKeep at h
    split at h
    · simp at h
    · split at h
      · rcases List.mem_cons.mp h with rfl | h
        · assumption
        · exact ih _ _ h
      · exact ih _ _ h

theorem monthlyKeep_all (cut : Int) :
    ∀ (l : List Entry) (k : Nat),
      (∀ e ∈ l, cut ≤ (toOrdinal e.date : Int)) → l.length + k ≤ 12 →
      monthlyKeep cut l k = l := by
  intro l
  induction l with
  | nil => intro k _ _; simp [monthlyKeep]
  | cons c cs ih =>
    intro k hpass hlen
    unfold monthlyKeep
    rw [if_neg (by simp at hlen; omega)]
    rw [if_pos (hpass c (List.mem_cons_self c cs))]
    rw [ih (k + 1) (fun e he => hpass e (List.mem_cons_of_mem c he)) (by simp at hlen ⊢; omega)]

/-! ### C1: the rotation decision is a total partition -/

/-- C1: for every input catalog `rotate` produces a total partition of the
catalog: the kept side and the deleted side together are a permutation of
the catalog, and every catalog entry is in exactly one of the two (it is in
the keep side iff it is not in the delete side); the algorithm is a total
function, so it cannot fail on a well-formed catalog. -/
theorem rotate_total_partition (backups : List Entry) (now : Date) :
    (rotateKeep backups now ++ rotateDelete backups now).Perm backups ∧
    (∀ e, e ∈ backups →
      (e ∈ rotateKeep backups now ↔ ¬ e ∈ rotateDelete backups now)) := by
  unfold rotateKeep rotateDelete
  by_cases h : backups.length ≤ 4
  · rw [if_pos h, if_pos h]
    constructor
    · simp
    · intro e he
      simp [he]
  · rw [if_neg h, if_neg h]
    constructor
    · have := List.filter_append_perm
        (fun e => decide (e.path ∈ keptPaths backups now)) backups
      simpa [decide_not] using this
    · intro e he
      by_cases hk : e.path ∈ keptPaths backups now
      · simp [List.mem_filter, he, hk]
      · simp [List.mem_filter, he, hk]

/-! ### C3: the schedule gate -/

/-- C3: `should_backup` returns `true` whenever `force` is set or the catalog
is empty; otherwise, with `days_old = now - catalog[0].date` in days
(index 0 is the most recent entry of the newest-first catalog), it returns
`false` for every `days_old` in `[0, 7]` (the boundary `days_old = 7`
included) and `true` for every `days_old > 7`. -/
theorem should_backup_gate (backups : List Entry) (now : Date) (force : Bool) :
    (force = true → should_backup backups now force = true) ∧
    (backups = [] → should_backup backups now force = true) ∧
    (∀ newest rest, backups = newest :: rest → force = false →
      (0 ≤ (toOrdinal now : Int) - toOrdinal newest.date →
        (toOrdinal now : Int) - toOrdinal newest.date ≤ 7 →
        should_backup backups now force = false) ∧
      (7 < (toOrdinal now : Int) - toOrdinal newest.date →
        should_backup backups now force = true)) := by
  refine ⟨fun hf => ?_, fun he => ?_, fun newest rest hb hf => ⟨fun _ h7 => ?_, fun h7 => ?_⟩⟩
  · simp [should_backup, hf]
  · cases force <;> simp [should_backup, he]
  · simp only [should_backup, hb, hf, Bool.false_eq_true, if_false]
    rw [if_pos h7]
  · simp only [should_backup, hb, hf, Bool.false_eq_true, if_false]
    rw [if_neg (not_le.mpr h7)]

/-! ### C4: small catalogs are untouched; the 4 most recent are always kept -/

/-- C4: a catalog with at most 4 entries is kept in full with nothing
deleted; in every catalog the 4 most-recent entries (positions 0-3 of the
newest-first ordering, i.e. `backups.take 4`) are unconditionally kept, and
every deleted entry comes from position 4 or later (`backups.drop 4`). -/
theorem rotate_keeps_top_four (backups : List Entry) (now : Date) :
    (backups.length ≤ 4 →
      rotateKeep backups now = backups ∧ rotateDelete backups now = []) ∧
    (∀ e ∈ backups.take 4, e ∈ rotateKeep backups now) ∧
    (∀ e ∈ rotateDelete backups now, e ∈ backups.drop 4) := by
  refine ⟨fun h => ⟨?_, ?_⟩, fun e he => ?_, fun e he => ?_⟩
  · simp [rotateKeep, h]
  · simp [rotateDelete, h]
  · unfold rotateKeep
    by_cases h : backups.length ≤ 4
    · rw [if_pos h]; exact List.mem_of_mem_take he
    · rw [if_neg h]
      refine List.mem_filter.mpr ⟨List.mem_of_mem_take he, ?_⟩
      simp only [decide_eq_true_eq]
      exact List.mem_append_left _ (List.mem_map_of_mem Entry.path he)
  · unfold rotateDelete at he
    by_cases h : backups.length ≤ 4
    · rw [if_pos h] at he; simp at he
    · rw [if_neg h] at he
      rcases List.mem_filter.mp he with ⟨hmem, hnot⟩
      simp only [decide_eq_true_eq] at hnot
      rcases List.mem_append.mp ((List.take_append_drop 4 backups) ▸ hmem) with h4 | h4
      · exact absurd (List.mem_append_left _ (List.mem_map_of_mem Entry.path h4)) hnot
      · exact h4

/-! ### C5: the monthly tier is bounded in count and age -/

/-- C5: for every catalog and every `now`, the monthly tier (run over the
entries at index 4 and later) keeps at most 12 entries, and every entry it
keeps has a date on or after `now - 365` days (the inclusive cutoff); an
entry strictly older than the cutoff is never kept by the monthly tier. -/
theorem monthly_tier_bounded (backups : List Entry) (now : Date) :
    (monthlyKeep (cutoff now) (monthCandidates (backups.drop 4)) 0).length ≤ 12 ∧
    ∀ e ∈ monthlyKeep (cutoff now) (monthCandidates (backups.drop 4)) 0,
      (toOrdinal now : Int) - 365 ≤ (toOrdinal e.date : Int) := by
  constructor
  · simpa using monthlyKeep_length (cutoff now) (monthCandidates (backups.drop 4)) 0
  · intro e he
    exact monthlyKeep_pass (cutoff now) _ 0 e he

theorem monthlyKeep_saturated (cut : Int) (l : List Entry) (k : Nat) (h : 12 ≤ k) :
    monthlyKeep cut l k = [] := by
  cases l with
  | nil => rfl
  | cons c cs => unfold monthlyKeep; rw [if_pos h]

theorem monthlyKeepSpec_saturated (cut : Int) :
    ∀ (l : List Entry) (k : Nat), 12 ≤ k → monthlyKeepSpec cut l k = [] := by
  intro l
  induction l with
  | nil => intro k _; rfl
  | cons c cs ih =>
    intro k h
    unfold monthlyKeepSpec
    rw [if_neg (by omega)]
    exact ih k h

theorem monthlyKeep_eq_spec (cut : Int) :
    ∀ (l : List Entry) (k : Nat), monthlyKeep cut l k = monthlyKeepSpec cut l k := by
  intro l
  induction l with
  | nil => intro k; rfl
  | cons c cs ih =>
    intro k
    by_cases hk : 12 ≤ k
    · rw [monthlyKeep_saturated cut _ k hk, monthlyKeepSpec_saturated cut _ k hk]
    · unfold monthlyKeep monthlyKeepSpec
      rw [if_neg hk]
      by_cases hc : cut ≤ (toOrdinal c.date : Int)
      · rw [if_pos hc, if_pos ⟨hc, by omega⟩, ih]
      · rw [if_neg hc, if_neg (by tauto), ih]

/-! ### C9: the kept side never exceeds 16 entries -/

theorem keptPaths_length_le (backups : List Entry) (now : Date) :
    (keptPaths backups now).length ≤ 16 := by
  unfold keptPaths
  rw [List.length_append, List.length_map, List.length_map]
  have h1 : (backups.take 4).length ≤ 4 := by
    simp [List.length_take]
  have h2 := monthlyKeep_length (cutoff now) (monthCandidates (backups.drop 4)) 0
  omega

/-- C9: for every catalog with pairwise-distinct artifact paths (as any real
directory listing has) and every `now`, the kept side of the rotation has at
most 16 entries: at most 4 from the recency tier plus at most 12 from the
monthly tier, however large the input catalog is. -/
theorem rotate_keep_at_most_16 (backups : List Entry) (now : Date)
    (hN : (backups.map Entry.path).Nodup) :
    (rotateKeep backups now).length ≤ 16 := by
  unfold rotateKeep
  by_cases h : backups.length ≤ 4
  · rw [if_pos h]; omega
  · rw [if_neg h]
    set keep := backups.filter (fun e => decide (e.path ∈ keptPaths backups now)) with hkeep
    have hsub : keep.Sublist backups := List.filter_sublist _
    have hnd : (keep.map Entry.path).Nodup := (hsub.map Entry.path).nodup hN
    have hmem : ∀ s ∈ keep.map Entry.path, s ∈ keptPaths backups now := by
      intro s hs
      rcases List.mem_map.mp hs with ⟨e, he, rfl⟩
      have := (List.mem_filter.mp he).2
      simpa using this
    have hcard : (keep.map Entry.path).length ≤ (keptPaths backups now).length := by
      have h1 : (keep.map Entry.path).toFinset.card = (keep.map Entry.path).length := by
        rw [List.card_toFinset, List.dedup_eq_self.mpr hnd]
      have h2 : (keep.map Entry.path).toFinset ⊆ (keptPaths backups now).toFinset := by
        intro s hs
        exact List.mem_toFinset.mpr (hmem s (List.mem_toFinset.mp hs))
      calc (keep.map Entry.path).length
          = (keep.map Entry.path).toFinset.card := h1.symm
        _ ≤ (keptPaths backups now).toFinset.card := Finset.card_le_card h2
        _ ≤ (keptPaths backups now).length := List.toFinset_card_le _
    rw [← List.length_map keep Entry.path]
    exact Nat.le_trans hcard (keptPaths_length_le backups now)

/-! ### C2: filename filtering of the catalog listing -/

theorem collectBackups_mem (dir : String) :
    ∀ (files : List String) (l : List Entry), collectBackups dir files = Except.ok l →
      ∀ e ∈ l, parse_backup_date e.filename = Except.ok (some e.date) := by
  intro files
  induction files with
  | nil =>
    intro l hl e he
    unfold collectBackups at hl
    cases hl
    simp at he
  | cons f fs ih =>
    intro l hl e he
    unfold collectBackups at hl
    cases hp : parse_backup_date f with
    | error err => rw [hp] at hl; cases hl
    | ok od =>
      cases od with
      | none =>
        rw [hp] at hl
        exact ih l hl e he
      | some dt =>
        rw [hp] at hl
        cases hc : collectBackups dir fs with
        | error err => rw [hc] at hl; cases hl
        | ok rest =>
          rw [hc] at hl
          cases hl
          rcases List.mem_cons.mp he with rfl | he'
          · simpa using hp
          · exact ih rest hc e he'

/-- C2 as stated is false on the code: `parse_backup_date` has no exception
handler, so a filename whose suffix matches the digit pattern but is not a
valid calendar date (here an invalid day-of-month, February 30) makes
`strptime` raise `ValueError`, which propagates out of the catalog listing
instead of the file being silently excluded. -/
theorem catalog_listing_raises_on_invalid_date :
    get_existing_backups "backups/x" ["database.db.2024-02-30"] = Except.error () := rfl

/-- C2 (amended): a filename whose suffix does not match the
dot-digit-pattern regex at all is silently excluded (the parser returns no
date and no error, and no catalog the listing successfully produces contains
it); but a filename whose suffix matches the digit pattern while not being a
strictly valid date is not silently excluded — the parse raises an error.
Every entry of a successfully produced catalog has a pattern-matching,
strictly valid date suffix. -/
theorem catalog_listing_exclusion (f : String) :
    (suffixDateDigits f = none → parse_backup_date f = Except.ok none) ∧
    (∀ y m d, suffixDateDigits f = some (y, m, d) → validDate y m d = false →
      parse_backup_date f = Except.error ()) ∧
    (∀ dir files catalog, get_existing_backups dir files = Except.ok catalog →
      ∀ e ∈ catalog, ∃ y m d, suffixDateDigits e.filename = some (y, m, d) ∧
        validDate y m d = true ∧ e.date = ⟨y, m, d⟩) := by
  refine ⟨fun hn => ?_, fun y m d hs hv => ?_, fun dir files catalog hc e he => ?_⟩
  · unfold parse_backup_date
    rw [hn]
  · unfold parse_backup_date
    rw [hs]
    simp [hv]
  · unfold get_existing_backups at hc
    cases hcol : collectBackups dir files with
    | error err => rw [hcol] at hc; cases hc
    | ok backups =>
      rw [hcol] at hc
      cases hc
      have he' : e ∈ backups := (List.mem_insertionSort dateGe).mp he
      have hp := collectBackups_mem dir files backups hcol e he'
      unfold parse_backup_date at hp
      cases hs : suffixDateDigits e.filename with
      | none => rw [hs] at hp; cases hp
      | some ymd =>
        obtain ⟨y, m, d⟩ := ymd
        rw [hs] at hp
        by_cases hv : validDate y m d
        · simp only [hv, if_true, Except.ok.injEq, Option.some.injEq] at hp
          exact ⟨y, m, d, rfl, hv, hp.symm⟩
        · simp only [hv, if_false, Bool.false_eq_true] at hp
          cases hp

/-! ### C7: processing order and continuation of the monthly tier -/

/-- The month keys are visited in strictly descending lexicographic order:
the processing list is sorted under `keyGe` and duplicate-free. -/
theorem monthKeys_strict (rest : List Entry) :
    (monthKeys rest).Pairwise (fun a b => keyGe a b ∧ a ≠ b) := by
  have hsorted : (monthKeys rest).Pairwise keyGe :=
    List.sorted_insertionSort keyGe ((rest.map monthKey).dedup)
  have hnd : (monthKeys rest).Nodup :=
    ((List.perm_insertionSort keyGe ((rest.map monthKey).dedup)).nodup_iff).mpr
      (List.nodup_dedup _)
  exact hsorted.and hnd

/-- C7: the monthly tier visits month groups in strictly descending
chronological order of the `(year, month)` key; its loop is extensionally
the spec's loop that continues through all month groups (the source's early
exit at the 12-month cap cannot change the kept set, because nothing can be
kept once 12 months are kept); and a candidate failing the 365-day cutoff
does not increment the kept-month counter — the loop proceeds to the later
(older) groups with the counter unchanged. -/
theorem monthly_processing_order (rest : List Entry) (cut : Int) :
    (monthKeys rest).Pairwise (fun a b => keyGe a b ∧ a ≠ b) ∧
    (∀ l k, monthlyKeep cut l k = monthlyKeepSpec cut l k) ∧
    (∀ c cs k, ¬ cut ≤ (toOrdinal c.date : Int) →
      monthlyKeep cut (c :: cs) k = monthlyKeep cut cs k) := by
  refine ⟨monthKeys_strict rest, monthlyKeep_eq_spec cut, fun c cs k hc => ?_⟩
  by_cases hk : 12 ≤ k
  · rw [monthlyKeep_saturated cut _ k hk, monthlyKeep_saturated cut _ k hk]
  · conv_lhs => unfold monthlyKeep
    rw [if_neg hk, if_neg hc]

/-! ### C8: the concrete scenario -/

/-- C8: with `now = 2024-04-01` and the seven-entry scenario catalog, the
rotation keeps exactly the entries dated 2024-03-29, 2024-03-22, 2024-03-15,
2024-03-01, 2024-02-10 and 2024-01-05, and deletes exactly the entry dated
2024-01-20 (2024-01-05, the oldest in January, is kept instead). -/
theorem rotate_scenario :
    rotateKeep scenarioCatalog scenarioNow = [e0329, e0322, e0315, e0301, e0210, e0105] ∧
    rotateDelete scenarioCatalog scenarioNow = [e0120] :=
  ⟨rfl, rfl⟩

/-! ### C10: the decision is independent of the storage listing order -/

theorem eq_of_perm_of_pairwise_asymm {α : Type} {r : α → α → Prop}
    (hasymm : ∀ a b, r a b → ¬ r b a) :
    ∀ {l1 l2 : List α}, l1.Perm l2 → l1.Pairwise r → l2.Pairwise r → l1 = l2 := by
  intro l1
  induction l1 with
  | nil =>
    intro l2 hp _ _
    exact (hp.symm.eq_nil).symm
  | cons a t1 ih =>
    intro l2 hp h1 h2
    have ha : a ∈ l2 := hp.mem_iff.mp (List.mem_cons_self a t1)
    obtain ⟨u, v, rfl⟩ := List.append_of_mem ha
    have hperm' : t1.Perm (u ++ v) := (hp.trans List.perm_middle).cons_inv
    cases u with
    | nil =>
      simp only [List.nil_append] at h2 ⊢
      simp only [List.nil_append] at hperm'
      rw [ih hperm' (List.pairwise_cons.mp h1).2 (List.pairwise_cons.mp h2).2]
    | cons b u' =>
      exfalso
      have hb1 : b ∈ t1 := hperm'.mem_iff.mpr (List.mem_append_left _ (List.mem_cons_self b u'))
      have hab : r a b := (List.pairwise_cons.mp h1).1 b hb1
      have hba : r b a := by
        rcases List.pairwise_append.mp h2 with ⟨_, _, hcross⟩
        exact hcross b (List.mem_cons_self b u') a (List.mem_cons_self a v)
      exact hasymm a b hab hba

theorem insertionSort_strict_of_nodup (l : List Entry)
    (hnd : (l.map (fun e => toOrdinal e.date)).Nodup) :
    (l.insertionSort dateGe).Pairwise (fun a b => toOrdinal b.date < toOrdinal a.date) := by
  have hs : (l.insertionSort dateGe).Pairwise dateGe :=
    List.sorted_insertionSort dateGe l
  have hnd' : ((l.insertionSort dateGe).map (fun e => toOrdinal e.date)).Nodup := by
    refine (List.Perm.nodup_iff ?_).mpr hnd
    exact (List.perm_insertionSort dateGe l).map _
  have hne : (l.insertionSort dateGe).Pairwise
      (fun a b => toOrdinal a.date ≠ toOrdinal b.date) :=
    List.pairwise_map.mp hnd'
  exact (hs.and hne).imp (fun h => Nat.lt_of_le_of_ne h.1 (fun e => h.2 e.symm))

theorem sortDesc_unique (l1 l2 : List Entry) (hperm : l1.Perm l2)
    (hnd : (l1.map (fun e => toOrdinal e.date)).Nodup) :
    l1.insertionSort dateGe = l2.insertionSort dateGe := by
  have hnd2 : (l2.map (fun e => toOrdinal e.date)).Nodup :=
    (List.Perm.nodup_iff (hperm.map _)).mp hnd
  refine eq_of_perm_of_pairwise_asymm (fun a b hab hba => ?_) ?_
    (insertionSort_strict_of_nodup l1 hnd) (insertionSort_strict_of_nodup l2 hnd2)
  · exact Nat.lt_asymm hab hba
  · exact ((List.perm_insertionSort dateGe l1).trans hperm).trans
      (List.perm_insertionSort dateGe l2).symm

theorem collectBackups_ok_of_no_error (dir : String) :
    ∀ files : List String, (∀ f ∈ files, parse_backup_date f ≠ Except.error ()) →
      collectBackups dir files = Except.ok (files.filterMap (entryOf dir)) := by
  intro files
  induction files with
  | nil => intro _; rfl
  | cons f fs ih =>
    intro h
    unfold collectBackups
    cases hp : parse_backup_date f with
    | error err =>
      exact absurd (by rw [hp]) (h f (List.mem_cons_self f fs))
    | ok od =>
      have hrest := ih (fun g hg => h g (List.mem_cons_of_mem f hg))
      cases od with
      | none =>
        rw [hrest]
        simp [List.filterMap_cons, entryOf, hp]
      | some dt =>
        rw [hrest]
        simp [List.filterMap_cons, entryOf, hp]

theorem collectBackups_no_error (dir : String) :
    ∀ (files : List String) (l : List Entry), collectBackups dir files = Except.ok l →
      ∀ f ∈ files, parse_backup_date f ≠ Except.error () := by
  intro files
  induction files with
  | nil => intro l _ f hf; simp at hf
  | cons g gs ih =>
    intro l hl f hf
    unfold collectBackups at hl
    cases hp : parse_backup_date g with
    | error err => rw [hp] at hl; cases hl
    | ok od =>
      rcases List.mem_cons.mp hf with rfl | hf'
      · rw [hp]; intro hcontra; cases hcontra
      · cases od with
        | none =>
          rw [hp] at hl
          exact ih l hl f hf'
        | some dt =>
          rw [hp] at hl
          cases hc : collectBackups dir gs with
          | error err => rw [hc] at hl; cases hl
          | ok rest => exact ih rest hc f hf'

/-- C10: if no two entries of the catalog share a date, the retention
decision is determined by the set of dated files alone: two storage listings
holding the same filenames in different orders produce the identical catalog
and hence the identical keep/delete partition. -/
theorem listing_order_determinism (dir : String) (files1 files2 : List String)
    (now : Date) (c1 c2 : List Entry)
    (hperm : files1.Perm files2)
    (h1 : get_existing_backups dir files1 = Except.ok c1)
    (h2 : get_existing_backups dir files2 = Except.ok c2)
    (hnd : (c1.map (fun e => toOrdinal e.date)).Nodup) :
    c1 = c2 ∧
    rotateKeep c1 now = rotateKeep c2 now ∧
    rotateDelete c1 now = rotateDelete c2 now := by
  have hcc : c1 = c2 := by
    unfold get_existing_backups at h1 h2
    cases hc1 : collectBackups dir files1 with
    | error err => rw [hc1] at h1; cases h1
    | ok b1 =>
      cases hc2 : collectBackups dir files2 with
      | error err => rw [hc2] at h2; cases h2
      | ok b2 =>
        rw [hc1] at h1; rw [hc2] at h2
        cases h1; cases h2
        have hne1 := collectBackups_no_error dir files1 b1 hc1
        have hne2 := collectBackups_no_error dir files2 b2 hc2
        have hb1 : b1 = files1.filterMap (entryOf dir) := by
          have := collectBackups_ok_of_no_error dir files1 hne1
          rw [hc1] at this; cases this; rfl
        have hb2 : b2 = files2.filterMap (entryOf dir) := by
          have := collectBackups_ok_of_no_error dir files2 hne2
          rw [hc2] at this; cases this; rfl
        have hbperm : b1.Perm b2 := by
          rw [hb1, hb2]; exact hperm.filterMap (entryOf dir)
        have hnd1 : (b1.map (fun e => toOrdinal e.date)).Nodup := by
          refine (List.Perm.nodup_iff ?_).mpr hnd
          exact ((List.perm_insertionSort dateGe b1).map _).symm
        exact sortDesc_unique b1 b2 hbperm hnd1
  exact ⟨hcc, by rw [hcc], by rw [hcc]⟩

/-! ### C6: idempotence of the rotation -/

theorem eq_singleton_of_mem_unique {α : Type} {l : List α} (hnd : l.Nodup) {m : α}
    (hm : m ∈ l) (huniq : ∀ x ∈ l, x = m) : l = [m] := by
  cases l with
  | nil => simp at hm
  | cons a t =>
    have ha : a = m := huniq a (List.mem_cons_self a t)
    subst ha
    have ht : t = [] := by
      rw [List.eq_nil_iff_forall_not_mem]
      intro x hx
      exact (List.pairwise_cons.mp hnd).1 x hx (huniq x (List.mem_cons_of_mem a hx)).symm
    rw [ht]

theorem filterMap_map_section {α β : Type} (h : α → β) (g : β → Option α) :
    ∀ l : List α, (∀ x ∈ l, g (h x) = some x) → (l.map h).filterMap g = l := by
  intro l
  induction l with
  | nil => intro _; rfl
  | cons a t ih =>
    intro hall
    rw [List.map_cons, List.filterMap_cons_some (hall a (List.mem_cons_self a t)),
      ih (fun x hx => hall x (List.mem_cons_of_mem a hx))]

theorem head_some_of_mem {l : List Entry} {e0 : Entry} (h : e0 ∈ l) :
    ∃ a, (l.insertionSort dateLe).head? = some a ∧ a ∈ l := by
  cases hL : l.insertionSort dateLe with
  | nil =>
    exfalso
    have hmem := (List.mem_insertionSort dateLe).mpr h
    rw [hL] at hmem
    simp at hmem
  | cons a t =>
    refine ⟨a, rfl, ?_⟩
    have hmem : a ∈ l.insertionSort dateLe := by
      rw [hL]; exact List.mem_cons_self a t
    exact (List.mem_insertionSort dateLe).mp hmem

theorem monthCandidate_spec (rest : List Entry) (k : Nat × Nat)
    (hk : k ∈ monthKeys rest) :
    ∃ e, monthCandidate rest k = some e ∧ monthKey e = k ∧ e ∈ rest := by
  have hk' : k ∈ rest.map monthKey :=
    List.mem_dedup.mp ((List.mem_insertionSort keyGe).mp hk)
  rcases List.mem_map.mp hk' with ⟨e0, he0, hke⟩
  have he0f : e0 ∈ rest.filter (fun e => monthKey e = k) :=
    List.mem_filter.mpr ⟨he0, by simp [hke]⟩
  rcases head_some_of_mem he0f with ⟨a, hhead, hafil⟩
  rcases List.mem_filter.mp hafil with ⟨harest, hdec⟩
  exact ⟨a, hhead, by simpa using hdec, harest⟩

theorem monthCandidates_subset (rest : List Entry) :
    ∀ e ∈ monthCandidates rest, e ∈ rest := by
  intro e he
  rcases List.mem_filterMap.mp he with ⟨k, hk, hsome⟩
  rcases monthCandidate_spec rest k hk with ⟨a, ha, _, harest⟩
  rw [ha] at hsome
  injection hsome with h
  exact h ▸ harest

theorem monthCandidates_months (rest : List Entry) :
    (monthCandidates rest).map monthKey = monthKeys rest := by
  unfold monthCandidates
  have hgen : ∀ ks : List (Nat × Nat),
      (∀ k ∈ ks, ∃ e, monthCandidate rest k = some e ∧ monthKey e = k) →
      (ks.filterMap (monthCandidate rest)).map monthKey = ks := by
    intro ks
    induction ks with
    | nil => intro _; rfl
    | cons k ks ih =>
      intro h
      rcases h k (List.mem_cons_self k ks) with ⟨e, hce, hke⟩
      rw [List.filterMap_cons_some hce, List.map_cons, hke,
        ih (fun k' hk' => h k' (List.mem_cons_of_mem k hk'))]
  exact hgen (monthKeys rest)
    (fun k hk => (monthCandidate_spec rest k hk).elim (fun e he => ⟨e, he.1, he.2.1⟩))

theorem monthCandidates_strict (rest : List Entry) :
    (monthCandidates rest).Pairwise
      (fun a b => keyGe (monthKey a) (monthKey b) ∧ monthKey a ≠ monthKey b) := by
  have h := monthKeys_strict rest
  rw [← monthCandidates_months rest] at h
  exact List.pairwise_map.mp h

/-- Run-1 decomposition: past the early return, the kept side is the 4 most
recent entries followed by those remainder entries whose path the monthly
tier kept (path-distinctness separates the two path pools). -/
theorem rotateKeep_decomp (backups : List Entry) (now : Date)
    (hlen : ¬ backups.length ≤ 4)
    (hN : (backups.map Entry.path).Nodup) :
    rotateKeep backups now
      = backups.take 4 ++ (backups.drop 4).filter
          (fun e => e.path ∈
            (monthlyKeep (cutoff now) (monthCandidates (backups.drop 4)) 0).map Entry.path) := by
  have key : ∀ (T D : List Entry) (KM : List String), backups = T ++ D →
      ((T ++ D).map Entry.path).Nodup →
      backups.filter (fun e => e.path ∈ T.map Entry.path ++ KM)
        = T ++ D.filter (fun e => e.path ∈ KM) := by
    intro T D KM hsplit hnd
    conv_lhs => rw [hsplit]
    rw [List.filter_append]
    congr 1
    · exact List.filter_eq_self.mpr (fun e he => by
        simp only [decide_eq_true_eq]
        exact List.mem_append_left _ (List.mem_map_of_mem _ he))
    · apply List.filter_congr
      intro e heD
      apply decide_eq_decide.mpr
      rw [List.mem_append]
      constructor
      · rintro (h | h)
        · exact ((List.disjoint_of_nodup_append (by rwa [List.map_append] at hnd)) h
            (List.mem_map_of_mem _ heD)).elim
        · exact h
      · exact fun h => Or.inr h
  unfold rotateKeep
  rw [if_neg hlen]
  have hkp : keptPaths backups now = (backups.take 4).map Entry.path
      ++ (monthlyKeep (cutoff now) (monthCandidates (backups.drop 4)) 0).map Entry.path := rfl
  rw [hkp]
  exact key (backups.take 4) (backups.drop 4) _ (List.take_append_drop 4 backups).symm
    (by rw [List.take_append_drop]; exact hN)

/-- Run-2: rerunning the rotation on a catalog of the shape `T ++ M'` —
4 recent entries followed by a permutation of a monthly-kept list with
pairwise-distinct months, all within the cutoff and at most 12 — keeps
everything and deletes nothing. -/
theorem rotate_second_run (now : Date) (T M' M B2 : List Entry)
    (hB2 : B2 = T ++ M')
    (hTlen : T.length = 4)
    (hM'perm : M'.Perm M)
    (hM'nodup : M'.Nodup)
    (hMstrict : M.Pairwise
      (fun a b => keyGe (monthKey a) (monthKey b) ∧ monthKey a ≠ monthKey b))
    (hMpass : ∀ m ∈ M, cutoff now ≤ (toOrdinal m.date : Int))
    (hMlen : M.length ≤ 12) :
    rotateKeep B2 now = B2 ∧ rotateDelete B2 now = [] := by
  by_cases hM'nil : M' = []
  · subst hM'nil
    have hlen2 : B2.length ≤ 4 := by rw [hB2]; simp [hTlen]
    constructor
    · unfold rotateKeep; rw [if_pos hlen2]
    · unfold rotateDelete; rw [if_pos hlen2]
  · have hlen2 : ¬ B2.length ≤ 4 := by
      rw [hB2, List.length_append, hTlen]
      have : 0 < M'.length := List.length_pos.mpr hM'nil
      omega
    have hMnodupMonths : (M.map monthKey).Nodup :=
      List.pairwise_map.mpr (hMstrict.imp (fun h => h.2))
    have hMInj : ∀ x ∈ M, ∀ y ∈ M, monthKey x = monthKey y → x = y :=
      List.inj_on_of_nodup_map hMnodupMonths
    have hCand : ∀ m ∈ M, monthCandidate M' (monthKey m) = some m := by
      intro m hm
      have hmM' : m ∈ M' := hM'perm.mem_iff.mpr hm
      have hgrp : M'.filter (fun e => monthKey e = monthKey m) = [m] := by
        apply eq_singleton_of_mem_unique (hM'nodup.filter _)
        · exact List.mem_filter.mpr ⟨hmM', by simp⟩
        · intro x hx
          rcases List.mem_filter.mp hx with ⟨hxM', hxk⟩
          exact hMInj x (hM'perm.mem_iff.mp hxM') m hm (by simpa using hxk)
      unfold monthCandidate
      rw [hgrp]
      rfl
    have hM'months : (M'.map monthKey).Nodup :=
      (List.Perm.nodup_iff (hM'perm.map monthKey)).mpr hMnodupMonths
    have hKeys2 : monthKeys M' = M.map monthKey := by
      apply List.eq_of_perm_of_sorted (r := keyGe)
      · have h1 : (monthKeys M').Perm ((M'.map monthKey).dedup) :=
          List.perm_insertionSort keyGe _
        rw [List.dedup_eq_self.mpr hM'months] at h1
        exact h1.trans (hM'perm.map monthKey)
      · exact List.sorted_insertionSort keyGe _
      · exact List.pairwise_map.mpr (hMstrict.imp (fun h => h.1))
    have hCands2 : monthCandidates M' = M := by
      unfold monthCandidates
      rw [hKeys2]
      exact filterMap_map_section monthKey (monthCandidate M') M hCand
    have hMK : monthlyKeep (cutoff now) M 0 = M :=
      monthlyKeep_all (cutoff now) M 0 hMpass (by omega)
    have hkp2 : keptPaths B2 now = T.map Entry.path ++ M.map Entry.path := by
      unfold keptPaths
      rw [hB2, List.take_left' hTlen, List.drop_left' hTlen, hCands2, hMK]
    have hAll : ∀ e ∈ B2, e.path ∈ keptPaths B2 now := by
      intro e he
      rw [hkp2]
      rcases List.mem_append.mp (hB2 ▸ he) with h | h
      · exact List.mem_append_left _ (List.mem_map_of_mem _ h)
      · exact List.mem_append_right _ (List.mem_map_of_mem _ (hM'perm.mem_iff.mp h))
    constructor
    · unfold rotateKeep
      rw [if_neg hlen2]
      exact List.filter_eq_self.mpr (fun e he => by
        simp only [decide_eq_true_eq]
        exact hAll e he)
    · unfold rotateDelete
      rw [if_neg hlen2]
      exact List.filter_eq_nil_iff.mpr (fun e he => by
        simp only [decide_eq_true_eq]
        exact fun hcon => hcon (hAll e he))

/-- C6: the rotation is idempotent on its own output: for every catalog with
pairwise-distinct artifact paths (as any real directory listing has) and a
fixed `now`, applying the rotation to the catalog consisting of exactly the
kept side of a first application keeps that side unchanged and deletes
nothing. -/
theorem rotate_idempotent (backups : List Entry) (now : Date)
    (hN : (backups.map Entry.path).Nodup) :
    rotateKeep (rotateKeep backups now) now = rotateKeep backups now ∧
    rotateDelete (rotateKeep backups now) now = [] := by
  by_cases hlen : backups.length ≤ 4
  · have hkeep : rotateKeep backups now = backups := by
      unfold rotateKeep; rw [if_pos hlen]
    rw [hkeep]
    constructor
    · unfold rotateKeep; rw [if_pos hlen]
    · unfold rotateDelete; rw [if_pos hlen]
  · have hdecomp := rotateKeep_decomp backups now hlen hN
    have hsplitN : ((backups.take 4).map Entry.path
        ++ (backups.drop 4).map Entry.path).Nodup := by
      rw [← List.map_append, List.take_append_drop]
      exact hN
    have hDpathNodup : ((backups.drop 4).map Entry.path).Nodup :=
      hsplitN.of_append_right
    have hDnodup : (backups.drop 4).Nodup := hDpathNodup.of_map
    have hDinj : ∀ x ∈ backups.drop 4, ∀ y ∈ backups.drop 4, x.path = y.path → x = y :=
      List.inj_on_of_nodup_map hDpathNodup
    have hMsub : (monthlyKeep (cutoff now) (monthCandidates (backups.drop 4)) 0).Sublist
        (monthCandidates (backups.drop 4)) := monthlyKeep_sublist _ _ 0
    have hMstrict : (monthlyKeep (cutoff now) (monthCandidates (backups.drop 4)) 0).Pairwise
        (fun a b => keyGe (monthKey a) (monthKey b) ∧ monthKey a ≠ monthKey b) :=
      (monthCandidates_strict (backups.drop 4)).sublist hMsub
    have hMD : ∀ m ∈ monthlyKeep (cutoff now) (monthCandidates (backups.drop 4)) 0,
        m ∈ backups.drop 4 :=
      fun m hm => monthCandidates_subset _ m (hMsub.subset hm)
    have hMnodup : (monthlyKeep (cutoff now) (monthCandidates (backups.drop 4)) 0).Nodup :=
      hMstrict.imp (fun h heq => h.2 (congrArg monthKey heq))
    have hM'nodup : ((backups.drop 4).filter
        (fun e => e.path ∈
          (monthlyKeep (cutoff now) (monthCandidates (backups.drop 4)) 0).map Entry.path)).Nodup :=
      hDnodup.filter _
    have hM'mem : ∀ x, (x ∈ (backups.drop 4).filter
        (fun e => e.path ∈
          (monthlyKeep (cutoff now) (monthCandidates (backups.drop 4)) 0).map Entry.path)) ↔
        x ∈ monthlyKeep (cutoff now) (monthCandidates (backups.drop 4)) 0 := by
      intro x
      constructor
      · intro hx
        rcases List.mem_filter.mp hx with ⟨hxD, hxp⟩
        simp only [decide_eq_true_eq] at hxp
        rcases List.mem_map.mp hxp with ⟨m, hmM, hpm⟩
        have hxm : x = m := hDinj x hxD m (hMD m hmM) hpm.symm
        rw [hxm]
        exact hmM
      · intro hxM
        refine List.mem_filter.mpr ⟨hMD x hxM, ?_⟩
        simp only [decide_eq_true_eq]
        exact List.mem_map_of_mem _ hxM
    have hM'perm : ((backups.drop 4).filter
        (fun e => e.path ∈
          (monthlyKeep (cutoff now) (monthCandidates (backups.drop 4)) 0).map Entry.path)).Perm
        (monthlyKeep (cutoff now) (monthCandidates (backups.drop 4)) 0) :=
      (List.perm_ext_iff_of_nodup hM'nodup hMnodup).mpr hM'mem
    have hTlen : (backups.take 4).length = 4 := by
      simp only [List.length_take]
      omega
    exact rotate_second_run now (backups.take 4) _ _ _ hdecomp hTlen hM'perm hM'nodup hMstrict
      (fun m hm => monthlyKeep_pass (cutoff now) _ 0 m hm)
      (by simpa using monthlyKeep_length (cutoff now) (monthCandidates (backups.drop 4)) 0)

/-! ### Witnesses -/

theorem rotate_total_partition_witness :
    (rotateKeep scenarioCatalog scenarioNow ++ rotateDelete scenarioCatalog scenarioNow).Perm
        scenarioCatalog ∧
    e0120 ∈ scenarioCatalog ∧
    (e0120 ∈ rotateKeep scenarioCatalog scenarioNow ↔
      ¬ e0120 ∈ rotateDelete scenarioCatalog scenarioNow) :=
  ⟨(rotate_total_partition scenarioCatalog scenarioNow).1, by decide,
   (rotate_total_partition scenarioCatalog scenarioNow).2 e0120 (by decide)⟩

theorem should_backup_gate_witness :
    should_backup scenarioCatalog scenarioNow false = false :=
  ((should_backup_gate scenarioCatalog scenarioNow false).2.2 e0329
    [e0322, e0315, e0301, e0210, e0120, e0105] rfl rfl).1 (by decide) (by decide)

theorem rotate_keeps_top_four_witness :
    (scenarioCatalog.length ≤ 4 → rotateKeep scenarioCatalog scenarioNow = scenarioCatalog) ∧
    (e0301 ∈ scenarioCatalog.take 4 ∧ e0301 ∈ rotateKeep scenarioCatalog scenarioNow) ∧
    (e0120 ∈ rotateDelete scenarioCatalog scenarioNow ∧ e0120 ∈ scenarioCatalog.drop 4) :=
  ⟨fun h => ((rotate_keeps_top_four scenarioCatalog scenarioNow).1 h).1,
   ⟨by decide, (rotate_keeps_top_four scenarioCatalog scenarioNow).2.1 e0301 (by decide)⟩,
   ⟨by decide, (rotate_keeps_top_four scenarioCatalog scenarioNow).2.2 e0120 (by decide)⟩⟩

theorem monthly_tier_bounded_witness :
    e0210 ∈ monthlyKeep (cutoff scenarioNow) (monthCandidates (scenarioCatalog.drop 4)) 0 ∧
    (toOrdinal scenarioNow : Int) - 365 ≤ (toOrdinal e0210.date : Int) :=
  ⟨by decide, (monthly_tier_bounded scenarioCatalog scenarioNow).2 e0210 (by decide)⟩

theorem rotate_keep_at_most_16_witness :
    (scenarioCatalog.map Entry.path).Nodup ∧
    (rotateKeep scenarioCatalog scenarioNow).length ≤ 16 :=
  ⟨by decide, rotate_keep_at_most_16 scenarioCatalog scenarioNow (by decide)⟩

theorem catalog_listing_exclusion_witness :
    suffixDateDigits "database.db.bak" = none ∧
    parse_backup_date "database.db.bak" = Except.ok none :=
  ⟨by decide, (catalog_listing_exclusion "database.db.bak").1 (by decide)⟩

theorem rotate_idempotent_witness :
    (scenarioCatalog.map Entry.path).Nodup ∧
    (rotateKeep (rotateKeep scenarioCatalog scenarioNow) scenarioNow
        = rotateKeep scenarioCatalog scenarioNow ∧
      rotateDelete (rotateKeep scenarioCatalog scenarioNow) scenarioNow = []) :=
  ⟨by decide, rotate_idempotent scenarioCatalog scenarioNow (by decide)⟩

theorem listing_order_determinism_witness :
    ["database.db.2024-03-01", "database.db.2024-03-22"].Perm
        ["database.db.2024-03-22", "database.db.2024-03-01"] ∧
    get_existing_backups "backups/x" ["database.db.2024-03-01", "database.db.2024-03-22"]
        = Except.ok [e0322, e0301] ∧
    get_existing_backups "backups/x" ["database.db.2024-03-22", "database.db.2024-03-01"]
        = Except.ok [e0322, e0301] ∧
    ([e0322, e0301].map (fun e => toOrdinal e.date)).Nodup ∧
    rotateKeep [e0322, e0301] scenarioNow = rotateKeep [e0322, e0301] scenarioNow :=
  ⟨List.Perm.swap _ _ _, rfl, rfl, by decide,
   (listing_order_determinism "backups/x"
      ["database.db.2024-03-01", "database.db.2024-03-22"]
      ["database.db.2024-03-22", "database.db.2024-03-01"]
      scenarioNow [e0322, e0301] [e0322, e0301]
      (List.Perm.swap _ _ _) rfl rfl (by decide)).2.1⟩

theorem monthly_processing_order_witness :
    ¬ cutoff scenarioNow ≤ (toOrdinal (⟨"old", ⟨2022, 1, 1⟩, "backups/x/old"⟩ : Entry).date : Int) ∧
    monthlyKeep (cutoff scenarioNow) [⟨"old", ⟨2022, 1, 1⟩, "backups/x/old"⟩, e0105] 0 =
      monthlyKeep (cutoff scenarioNow) [e0105] 0 :=
  ⟨by decide,
   (monthly_processing_order [] (cutoff scenarioNow)).2.2
     ⟨"old", ⟨2022, 1, 1⟩, "backups/x/old"⟩ [e0105] 0 (by decide)⟩

end Backup
